import Mathlib

/-!
Verification of the git-reporter developer-activity tool.

The Python source (`git_reporter.py`) is shallowly embedded here:
timestamps are rationals counting seconds (a `datetime` difference's
`total_seconds()`), durations are rationals counting hours, Python sets
become `Finset`, Python dicts (which iterate in insertion order) become
association lists, a fallible computation becomes `Option`.
-/

namespace GitReporter

/-- Python's `round` ties to even; `round(x, 2)` is modelled as
rounding `x * 100` half-to-even and dividing back by 100. -/
def roundHalfEven (q : ℚ) : ℤ :=
  let f : ℤ := ⌊q⌋
  let frac : ℚ := q - f
  if frac < 1/2 then f
  else if 1/2 < frac then f + 1
  else if f % 2 = 0 then f else f + 1

/-- `round(x, 2)` from `calculate_stats`. -/
def round2 (q : ℚ) : ℚ := (roundHalfEven (q * 100) : ℚ) / 100

/-- The inner loop of `GitReporter.calculate_stats` (lines 285-295 of
`git_reporter.py`): scanning the sorted timestamps after the first,
`sessionStart` is the running session start and `prev` the previously
seen timestamp.  A gap strictly above 3 hours closes the session at
`prev` with duration `max((prev - sessionStart)/3600, 0.5)`; the final
session is closed against the last timestamp the same way. -/
def sessionsFrom (sessionStart : ℚ) (prev : ℚ) : List ℚ → List ℚ
  | [] => [max ((prev - sessionStart) / 3600) (1/2)]
  | curr :: rest =>
    if (curr - prev) / 3600 > 3 then
      max ((prev - sessionStart) / 3600) (1/2) :: sessionsFrom curr curr rest
    else
      sessionsFrom sessionStart curr rest

/-- Session durations produced from a timestamp list (`calculate_stats`
initialises `session_start = times[0]` and scans from the second
element; an empty list yields no sessions). -/
def buildSessions : List ℚ → List ℚ
  | [] => []
  | t :: rest => sessionsFrom t t rest

/-- `statistics.median`: middle element of the sorted data for odd
length, average of the two middle elements for even length. -/
def pyMedian (l : List ℚ) : ℚ :=
  let s := l.insertionSort (· ≤ ·)
  let n := l.length
  if n % 2 = 1 then s.getD (n / 2) 0
  else (s.getD (n / 2 - 1) 0 + s.getD (n / 2) 0) / 2

/-- `statistics.quantiles(data, n=10)[-1]` with the default exclusive
method: the cut point `i = 9` with `m = len + 1`,
`j = clamp(9 * m // 10, 1, len - 1)`, `delta = 9 * m - 10 * j`, and
linear interpolation `(data[j-1] * (10 - delta) + data[j] * delta) / 10`. -/
def pyQuantile90 (l : List ℚ) : ℚ :=
  let data := l.insertionSort (· ≤ ·)
  let ld := data.length
  let m := ld + 1
  let j1 := 9 * m / 10
  let j := if j1 < 1 then 1 else if j1 > ld - 1 then ld - 1 else j1
  let delta : ℤ := 9 * (m : ℤ) - 10 * (j : ℤ)
  (data.getD (j - 1) 0 * (10 - (delta : ℚ)) + data.getD j 0 * (delta : ℚ)) / 10

/-- The per-developer record built by `calculate_stats`.  `p90_session`
is the tri-state field: `none` models the string sentinel 'N/A', `some q`
a numeric 90th percentile. -/
structure DevStats where
  hours : ℚ
  tasks : Finset String
  sessions : ℕ
  avg_session : ℚ
  median_session : ℚ
  p90_session : Option ℚ
deriving DecidableEq

/-- One developer's raw activity as accumulated by `process_commits`:
the `hours` list of commit timestamps and the set of task identifiers. -/
structure DevData where
  hours : List ℚ
  tasks : Finset String
deriving DecidableEq

/-- The body of `calculate_stats` for one developer: sort the
timestamps, skip the developer if there are none, otherwise build
sessions and aggregate. -/
def calcDevStats (hours : List ℚ) (tasks : Finset String) : Option DevStats :=
  let times := hours.insertionSort (· ≤ ·)
  if times.isEmpty then none
  else
    let sessions := buildSessions times
    some {
      hours := round2 sessions.sum
      tasks := tasks
      sessions := sessions.length
      avg_session := if sessions.isEmpty then 0 else round2 (sessions.sum / sessions.length)
      median_session := if sessions.isEmpty then 0 else round2 (pyMedian sessions)
      p90_session := if sessions.length ≥ 10 then some (round2 (pyQuantile90 sessions)) else none
    }

/-- `calculate_stats` over the whole developer map (dicts iterate in
insertion order, so the map is an association list). -/
def calculate_stats (dev_data : List (String × DevData)) : List (String × DevStats) :=
  dev_data.filterMap (fun p => (calcDevStats p.2.hours p.2.tasks).map (fun s => (p.1, s)))

/-- Python's `str.lower()` (ASCII-faithful): lowercase every character. -/
def pyLower (s : String) : String := String.mk (s.data.map Char.toLower)

/-- The characters removed by Python's `str.strip()`. -/
def isPySpace (c : Char) : Bool :=
  c = ' ' || c = '\t' || c = '\n' || c = '\r' || c = Char.ofNat 11 || c = Char.ofNat 12

/-- Python's `str.strip()`: drop leading and trailing whitespace. -/
def pyStrip (s : String) : String :=
  String.mk (((s.data.dropWhile isPySpace).reverse.dropWhile isPySpace).reverse)

/-- `GitReporter.load_externals` (lines 172-175): `none` models a
missing externals file, `some content` its text.  Each line is stripped,
blank lines are dropped, and the rest are lowercased into a set. -/
def load_externals (file : Option String) : Finset String :=
  match file with
  | none => ∅
  | some content =>
      ((((content.split (fun c => c = '\n')).map pyStrip).filter
        (fun line => line ≠ "")).map pyLower).toFinset

/-- One raw commit record as seen by `process_commits`: author display
name, message text and the committed timestamp (seconds). -/
structure Commit where
  author : String
  message : String
  timestamp : ℚ
deriving DecidableEq

/-- `dev_data[author]['hours'].append(dt)` together with
`dev_data[author]['tasks'].update(tasks)` on a `defaultdict`:
an existing author entry is updated in place, a new author is
appended at the end (dict insertion order). -/
def upsert (m : List (String × DevData)) (author : String) (dt : ℚ)
    (tasks : Finset String) : List (String × DevData) :=
  match m with
  | [] => [(author, ⟨[dt], tasks⟩)]
  | (a, d) :: rest =>
    if a = author then (a, ⟨d.hours ++ [dt], d.tasks ∪ tasks⟩) :: rest
    else (a, d) :: upsert rest author dt tasks

/-- The per-commit step of `process_commits` (lines 235-245): a commit
whose lowercased author is in the exclusion set is skipped, otherwise
its timestamp and extracted tasks are accumulated under the author. -/
def processCommit (externos : Finset String) (extract : String → Finset String)
    (m : List (String × DevData)) (c : Commit) : List (String × DevData) :=
  if pyLower c.author ∈ externos then m
  else upsert m c.author c.timestamp (extract c.message)

/-- `GitReporter.process_commits` restricted to its pure core: the
commit list is already fetched, `extract` models
`set(re.findall(self.task_pattern, msg))` for the fixed compiled
pattern. -/
def process_commits (externos : Finset String) (extract : String → Finset String)
    (commits : List Commit) : List (String × DevData) :=
  commits.foldl (processCommit externos extract) []

/-- The summary record stored by `generate_report` in summary mode. -/
structure SummaryRecord where
  total_hours : ℚ
  total_tasks : ℕ
  total_developers : ℕ
deriving DecidableEq

/-- A per-task record of the tasks report mode. -/
structure TaskRecord where
  hours : ℚ
  developers : Finset String
deriving DecidableEq

/-- `--report-type`: one of summary, detailed, tasks. -/
inductive ReportType where
  | summary
  | detailed
  | tasks
deriving DecidableEq

/-- The record stored under one repository name in `report_data`. -/
inductive RepoReport where
  | summary (r : SummaryRecord)
  | detailed (s : List (String × DevStats))
  | tasks (t : List (String × TaskRecord))
deriving DecidableEq

/-- Summary mode of `generate_report` (lines 336-341):
`sum(d['hours'] for d in stats.values())` is a left fold of additions,
`{task for d in stats.values() for task in d.get('tasks', set())}` a
left fold of set unions, and `len(stats)` the entry count. -/
def generate_report_summary (stats : List (String × DevStats)) : SummaryRecord :=
  { total_hours := stats.foldl (fun acc p => acc + p.2.hours) (0 : ℚ)
    total_tasks := (stats.foldl (fun acc p => acc ∪ p.2.tasks) (∅ : Finset String)).card
    total_developers := stats.length }

/-- Tasks mode of `generate_report` (lines 344-352): a fresh empty
`task_data` defaultdict, a loop over `stats.items()` whose body is
`pass`, and the (still empty) `task_data` is stored. -/
def generate_report_tasks (stats : List (String × DevStats)) : List (String × TaskRecord) :=
  stats.foldl (fun task_data _ => task_data) []

/-- The record `generate_report` stores for one repository, by mode. -/
def makeReport (rt : ReportType) (stats : List (String × DevStats)) : RepoReport :=
  match rt with
  | .summary => .summary (generate_report_summary stats)
  | .detailed => .detailed stats
  | .tasks => .tasks (generate_report_tasks stats)

/-- `self.report_data[repo_name][...] = record`: overwrite in place
when the repository name is already a key, append otherwise. -/
def storeReport (report : List (String × RepoReport)) (name : String)
    (r : RepoReport) : List (String × RepoReport) :=
  if report.any (fun p => p.1 == name) then
    report.map (fun p => if p.1 = name then (name, r) else p)
  else report ++ [(name, r)]

/-- One repository as seen by `GitReporter.run`: its basename, whether
`Repo(repo_path)` succeeds (`valid`), and the outcome of scanning its
commits — `none` models an exception raised inside `process_commits`
(which catches it, logs and returns `None`). -/
structure RepoInput where
  name : String
  valid : Bool
  scan : Option (List Commit)

/-- The per-repository step of the loop in `GitReporter.run` (lines
525-545): an invalid repository is skipped via the caught
`InvalidGitRepositoryError`; a failed or empty scan is skipped by
`if not dev_data: continue`; otherwise stats are computed and the
report for this repository is stored. -/
def runRepo (rt : ReportType) (externos : Finset String)
    (extract : String → Finset String)
    (report : List (String × RepoReport)) (r : RepoInput) :
    List (String × RepoReport) :=
  if r.valid = false then report
  else
    match r.scan with
    | none => report
    | some commits =>
      let dev_data := process_commits externos extract commits
      if dev_data.isEmpty then report
      else storeReport report r.name (makeReport rt (calculate_stats dev_data))

/-- The repository loop of `GitReporter.run`: fold `runRepo` over the
repositories, starting from the empty report mapping. -/
def run_process (rt : ReportType) (externos : Finset String)
    (extract : String → Finset String) (repos : List RepoInput) :
    List (String × RepoReport) :=
  repos.foldl (runRepo rt externos extract) []

/-! ### Helper lemmas about the session builder -/

theorem sessionsFrom_length_pos :
    ∀ (rest : List ℚ) (s prev : ℚ), 1 ≤ (sessionsFrom s prev rest).length := by
  intro rest
  induction rest with
  | nil => intro s prev; simp [sessionsFrom]
  | cons curr rest ih =>
    intro s prev
    by_cases h : (curr - prev) / 3600 > 3
    · simp [sessionsFrom, h]
    · simpa [sessionsFrom, h] using ih s curr

theorem sessionsFrom_length_le :
    ∀ (rest : List ℚ) (s prev : ℚ), (sessionsFrom s prev rest).length ≤ rest.length + 1 := by
  intro rest
  induction rest with
  | nil => intro s prev; simp [sessionsFrom]
  | cons curr rest ih =>
    intro s prev
    by_cases h : (curr - prev) / 3600 > 3
    · simpa [sessionsFrom, h] using ih curr curr
    · have := ih s curr
      simp only [sessionsFrom, h, if_false, List.length_cons]
      omega

theorem sessionsFrom_mem_ge :
    ∀ (rest : List ℚ) (s prev d : ℚ), d ∈ sessionsFrom s prev rest → 1/2 ≤ d := by
  intro rest
  induction rest with
  | nil =>
    intro s prev d hd
    simp only [sessionsFrom, List.mem_singleton] at hd
    rw [hd]
    exact le_max_right _ _
  | cons curr rest ih =>
    intro s prev d hd
    by_cases h : (curr - prev) / 3600 > 3
    · simp only [sessionsFrom, h, if_true, List.mem_cons] at hd
      rcases hd with hd | hd
      · rw [hd]; exact le_max_right _ _
      · exact ih curr curr d hd
    · simp only [sessionsFrom, h, if_false] at hd
      exact ih s curr d hd

theorem sessionsFrom_chain :
    ∀ (ys : List ℚ) (prev s : ℚ),
      List.Chain (fun x y => (y - x) / 3600 ≤ 3) prev ys →
      sessionsFrom s prev ys = [max ((ys.getLastD prev - s) / 3600) (1/2)] := by
  intro ys
  induction ys with
  | nil => intro prev s _; simp [sessionsFrom]
  | cons y ys ih =>
    intro prev s hchain
    rcases hchain with _ | ⟨hgap, hchain⟩
    have hnot : ¬ ((y - prev) / 3600 > 3) := not_lt.mpr hgap
    simp only [sessionsFrom, hnot, if_false, List.getLastD_cons]
    exact ih y s hchain

theorem sessionsFrom_split (b : ℚ) (ys : List ℚ) :
    ∀ (zs : List ℚ) (s prev : ℚ), (b - zs.getLastD prev) / 3600 > 3 →
      sessionsFrom s prev (zs ++ b :: ys) =
        sessionsFrom s prev zs ++ sessionsFrom b b ys := by
  intro zs
  induction zs with
  | nil =>
    intro s prev hgap
    simp only [List.getLastD_nil] at hgap
    simp [sessionsFrom, hgap]
  | cons z zs ih =>
    intro s prev hgap
    simp only [List.getLastD_cons] at hgap
    by_cases h : (z - prev) / 3600 > 3
    · simp only [List.cons_append, sessionsFrom, h, if_true]
      exact congrArg (List.cons _) (ih z z hgap)
    · simp only [List.cons_append, sessionsFrom, h, if_false]
      exact ih s z hgap

/-- C1: a session closes between consecutive timestamps exactly when the
gap strictly exceeds 3 hours (gaps of at most 3 hours, such as exactly
3.0 hours, never split; any larger gap always splits the run at that
point), each closed session's duration is `max(last - start, 0.5)`
hours, and `[T, T + 1h, T + 5h]` yields exactly `[1.0, 0.5]`. -/
theorem gap_splitting_C1 :
    (∀ (xs ys : List ℚ) (a b : ℚ), (b - a) / 3600 > 3 →
      buildSessions (xs ++ a :: b :: ys) =
        buildSessions (xs ++ [a]) ++ buildSessions (b :: ys)) ∧
    (∀ (a : ℚ) (ys : List ℚ), List.Chain (fun x y => (y - x) / 3600 ≤ 3) a ys →
      buildSessions (a :: ys) = [max ((ys.getLastD a - a) / 3600) (1/2)]) ∧
    (∀ T : ℚ, buildSessions [T, T + 3600, T + 18000] = [1, 1/2]) := by
  refine ⟨?_, ?_, ?_⟩
  · intro xs ys a b hgap
    cases xs with
    | nil =>
      have h := sessionsFrom_split b ys [] a a (by simpa using hgap)
      simpa [buildSessions] using h
    | cons x xs =>
      have hlast : (xs ++ [a]).getLastD x = a := List.getLastD_concat _ _ _
      have h := sessionsFrom_split b ys (xs ++ [a]) x x (by rw [hlast]; exact hgap)
      simpa [buildSessions, List.append_assoc] using h
  · intro a ys hchain
    simpa [buildSessions] using sessionsFrom_chain ys a a hchain
  · intro T
    have e1 : (T + 3600 - T : ℚ) = 3600 := by ring
    have e2 : (T + 18000 - (T + 3600) : ℚ) = 14400 := by ring
    have e3 : (T + 18000 - (T + 18000) : ℚ) = 0 := by ring
    simp only [buildSessions, sessionsFrom, e1, e2, e3]
    norm_num

/-- C1 witness: the splitting branch applied at `[0, 11000]` (gap above
3 hours) and the no-split branch applied at `[0, 3600]` (gap of exactly
1 hour). -/
theorem gap_splitting_C1_witness :
    buildSessions ([] ++ (0 : ℚ) :: 11000 :: []) =
      buildSessions ([] ++ [(0 : ℚ)]) ++ buildSessions [(11000 : ℚ)] ∧
    buildSessions ((0 : ℚ) :: [3600]) =
      [max (([(3600 : ℚ)].getLastD 0 - 0) / 3600) (1/2)] :=
  ⟨gap_splitting_C1.1 [] [] 0 11000 (by norm_num),
   gap_splitting_C1.2.1 0 [3600] (List.Chain.cons (by norm_num) List.Chain.nil)⟩

/-- C2: an author with exactly one commit timestamp gets exactly one
session of exactly 0.5 hours (and hence total hours 0.5, one session in
the stats record). -/
theorem single_commit_C2 : ∀ (t : ℚ) (ts : Finset String),
    buildSessions [t] = [1/2] ∧
    calcDevStats [t] ts = some ⟨1/2, ts, 1, 1/2, 1/2, none⟩ := by
  intro t ts
  have hb : buildSessions [t] = [1/2] := by
    simp only [buildSessions, sessionsFrom, sub_self, zero_div]
    norm_num
  refine ⟨hb, ?_⟩
  have hsort : List.insertionSort (· ≤ ·) [t] = [t] := by
    simp [List.insertionSort, List.orderedInsert]
  norm_num [calcDevStats, hsort, hb, round2, roundHalfEven, pyMedian,
    List.insertionSort, List.orderedInsert]

/-- C3: for a non-empty list of `N` timestamps the session builder
produces between 1 and `N` sessions, and every session duration is at
least 0.5 hours. -/
theorem session_bounds_C3 : ∀ (t : ℚ) (rest : List ℚ),
    1 ≤ (buildSessions (t :: rest)).length ∧
    (buildSessions (t :: rest)).length ≤ (t :: rest).length ∧
    ∀ d ∈ buildSessions (t :: rest), 1/2 ≤ d := by
  intro t rest
  refine ⟨?_, ?_, ?_⟩
  · simpa [buildSessions] using sessionsFrom_length_pos rest t t
  · simpa [buildSessions] using sessionsFrom_length_le rest t t
  · intro d hd
    exact sessionsFrom_mem_ge rest t t d (by simpa [buildSessions] using hd)

/-- C3 witness: at timestamps `[0, 3600]` the single session `1` is a
member of the produced list and is at least 0.5. -/
theorem session_bounds_C3_witness :
    (1 : ℚ) ∈ buildSessions ((0 : ℚ) :: [3600]) ∧ (1 : ℚ)/2 ≤ 1 :=
  ⟨by norm_num [buildSessions, sessionsFrom],
   (session_bounds_C3 0 [3600]).2.2 1 (by norm_num [buildSessions, sessionsFrom])⟩

/-- C4: the 90th-percentile field is the 'N/A' sentinel exactly when the
session count is between 1 and 9, and is a numeric value exactly when
the session count is at least 10. -/
theorem p90_sentinel_C4 : ∀ (hours : List ℚ) (ts : Finset String) (s : DevStats),
    calcDevStats hours ts = some s →
    (s.p90_session = none ↔ (1 ≤ s.sessions ∧ s.sessions ≤ 9)) ∧
    ((∃ q, s.p90_session = some q) ↔ 10 ≤ s.sessions) := by
  intro hours ts s h
  cases hts : hours.insertionSort (· ≤ ·) with
  | nil => simp [calcDevStats, hts] at h
  | cons t rest =>
    have hlen : 1 ≤ (buildSessions (t :: rest)).length := by
      simpa [buildSessions] using sessionsFrom_length_pos rest t t
    simp only [calcDevStats, hts, List.isEmpty_cons, Bool.false_eq_true, if_false] at h
    obtain rfl := Option.some.inj h
    by_cases h10 : 10 ≤ (buildSessions (t :: rest)).length
    · constructor
      · simp only [h10, ge_iff_le, if_true]
        constructor
        · intro habs; exact absurd habs (by simp)
        · intro ⟨_, hle⟩; omega
      · simp [h10]
    · have h9 : (buildSessions (t :: rest)).length ≤ 9 := by omega
      constructor
      · simp only [ge_iff_le, h10, if_false]
        simp [hlen, h9]
      · simp [h10]

/-- C4 witness: a single-commit author has one session and the sentinel
90th percentile. -/
theorem p90_sentinel_C4_witness :
    DevStats.p90_session ⟨1/2, ∅, 1, 1/2, 1/2, none⟩ = none ↔
      (1 ≤ DevStats.sessions ⟨1/2, ∅, 1, 1/2, 1/2, none⟩ ∧
       DevStats.sessions ⟨1/2, ∅, 1, 1/2, 1/2, none⟩ ≤ 9) :=
  (p90_sentinel_C4 [0] ∅ ⟨1/2, ∅, 1, 1/2, 1/2, none⟩
    (by norm_num [calcDevStats, buildSessions, sessionsFrom,
      List.insertionSort, List.orderedInsert, round2, roundHalfEven, pyMedian])).1

/-- C10: `calculate_stats` sorts the timestamp list itself, so the
per-author statistics are invariant under any permutation of the
author's timestamps. -/
theorem perm_invariance_C10 : ∀ (l1 l2 : List ℚ) (ts : Finset String),
    List.Perm l1 l2 → calcDevStats l1 ts = calcDevStats l2 ts := by
  intro l1 l2 ts h
  have hsort : l1.insertionSort (· ≤ ·) = l2.insertionSort (· ≤ ·) :=
    List.eq_of_perm_of_sorted
      (((List.perm_insertionSort _ l1).trans h).trans (List.perm_insertionSort _ l2).symm)
      (List.sorted_insertionSort _ l1) (List.sorted_insertionSort _ l2)
  simp only [calcDevStats, hsort]

/-- C10 witness: the stats of `[1, 0]` and of `[0, 1]` agree. -/
theorem perm_invariance_C10_witness :
    calcDevStats [(1 : ℚ), 0] ∅ = calcDevStats [0, 1] ∅ :=
  perm_invariance_C10 [1, 0] [0, 1] ∅ (List.Perm.swap 0 1 [])

/-! ### Report builder -/

theorem foldl_add_hours : ∀ (stats : List (String × DevStats)) (acc : ℚ),
    stats.foldl (fun acc p => acc + p.2.hours) acc =
      acc + (stats.map (fun p => p.2.hours)).sum := by
  intro stats
  induction stats with
  | nil => intro acc; simp
  | cons p rest ih => intro acc; simp [ih, add_assoc]

theorem foldl_union_tasks : ∀ (stats : List (String × DevStats)) (acc : Finset String),
    stats.foldl (fun acc p => acc ∪ p.2.tasks) acc =
      acc ∪ (stats.map (fun p => p.2.tasks)).foldr (· ∪ ·) ∅ := by
  intro stats
  induction stats with
  | nil => intro acc; simp
  | cons p rest ih => intro acc; simp [ih, Finset.union_assoc]

/-- C5: in summary mode the stored record holds the sum of all authors'
hours, the size of the union of all authors' task sets, and the number
of authors. -/
theorem summary_report_C5 : ∀ (stats : List (String × DevStats)),
    makeReport ReportType.summary stats = RepoReport.summary
      { total_hours := (stats.map (fun p : String × DevStats => p.2.hours)).sum
        total_tasks :=
          ((stats.map (fun p : String × DevStats => p.2.tasks)).foldr (· ∪ ·) ∅).card
        total_developers := stats.length } := by
  intro stats
  simp [makeReport, generate_report_summary, foldl_add_hours, foldl_union_tasks]

/-- C6: the tasks-mode branch of `generate_report` never attributes any
hours or developers — its loop body is `pass`, so the stored per-task
map is empty; in particular an author with two tasks and 10 total hours
contributes nothing. -/
theorem tasks_report_empty_C6 :
    makeReport ReportType.tasks [("alice", ⟨10, {"AB-1", "AB-2"}, 2, 5, 5, none⟩)] =
      RepoReport.tasks [] ∧
    ∀ (stats : List (String × DevStats)), generate_report_tasks stats = [] := by
  constructor
  · rfl
  · intro stats
    induction stats with
    | nil => rfl
    | cons p rest ih =>
      simp only [generate_report_tasks, List.foldl_cons] at ih ⊢
      exact ih

/-! ### Commit filter -/

theorem upsert_mem_key : ∀ (m : List (String × DevData)) (a b : String) (dt : ℚ)
    (ts : Finset String),
    (∃ d, (a, d) ∈ upsert m b dt ts) ↔ (a = b ∨ ∃ d, (a, d) ∈ m) := by
  intro m
  induction m with
  | nil =>
    intro a b dt ts
    simp [upsert]
  | cons p rest ih =>
    intro a b dt ts
    obtain ⟨k, v⟩ := p
    by_cases hk : k = b
    · subst hk
      simp only [upsert, if_pos rfl, List.mem_cons, Prod.mk.injEq]
      aesop
    · simp only [upsert, if_neg hk, List.mem_cons, Prod.mk.injEq]
      constructor
      · rintro ⟨d, hd | hd⟩
        · exact Or.inr ⟨d, Or.inl hd⟩
        · rcases (ih a b dt ts).mp ⟨d, hd⟩ with hab | ⟨d2, hd2⟩
          · exact Or.inl hab
          · exact Or.inr ⟨d2, Or.inr hd2⟩
      · rintro (hab | ⟨d, hd | hd⟩)
        · rcases (ih a b dt ts).mpr (Or.inl hab) with ⟨d2, hd2⟩
          exact ⟨d2, Or.inr hd2⟩
        · exact ⟨v, Or.inl ⟨hd.1, rfl⟩⟩
        · rcases (ih a b dt ts).mpr (Or.inr ⟨d, hd⟩) with ⟨d2, hd2⟩
          exact ⟨d2, Or.inr hd2⟩

theorem process_key_iff : ∀ (ex : Finset String) (f : String → Finset String)
    (cs : List Commit) (m : List (String × DevData)) (a : String),
    (∃ d, (a, d) ∈ cs.foldl (processCommit ex f) m) ↔
      ((∃ d, (a, d) ∈ m) ∨ (pyLower a ∉ ex ∧ ∃ c ∈ cs, c.author = a)) := by
  intro ex f cs
  induction cs with
  | nil => intro m a; simp
  | cons c cs ih =>
    intro m a
    simp only [List.foldl_cons]
    rw [ih]
    by_cases hex : pyLower c.author ∈ ex
    · simp only [processCommit, if_pos hex, List.mem_cons]
      have hc : c.author = a → pyLower a ∈ ex := fun h => h ▸ hex
      aesop
    · simp only [processCommit, if_neg hex, upsert_mem_key, List.mem_cons]
      have hc : a = c.author → pyLower a ∉ ex := fun h => h ▸ hex
      aesop

/-- C7: a commit is excluded exactly when the lowercased author name is
a member of the exclusion set; 'Jane Doe' is excluded by a 'jane doe'
entry while 'Jane Doe2' is not (exact, case-insensitive match). -/
theorem exclusion_filter_C7 :
    (∀ (ex : Finset String) (f : String → Finset String) (cs : List Commit) (a : String),
      (∃ d, (a, d) ∈ process_commits ex f cs) ↔
        (pyLower a ∉ ex ∧ ∃ c ∈ cs, c.author = a)) ∧
    (∀ (f : String → Finset String) (msg : String) (t : ℚ),
      process_commits {"jane doe"} f [⟨"Jane Doe", msg, t⟩] = []) ∧
    (∀ (f : String → Finset String) (msg : String) (t : ℚ),
      process_commits {"jane doe"} f [⟨"Jane Doe2", msg, t⟩] =
        [("Jane Doe2", ⟨[t], f msg⟩)]) := by
  refine ⟨?_, ?_, ?_⟩
  · intro ex f cs a
    rw [process_commits, process_key_iff]
    simp
  · intro f msg t
    have hl : pyLower "Jane Doe" ∈ ({"jane doe"} : Finset String) := by decide
    simp [process_commits, processCommit, hl]
  · intro f msg t
    have hl : pyLower "Jane Doe2" ∉ ({"jane doe"} : Finset String) := by decide
    simp [process_commits, processCommit, hl, upsert]

/-- C8: a missing externals file yields the empty exclusion set (not an
error); an existing file yields exactly its non-blank lines, stripped of
surrounding whitespace and lowercased. -/
theorem load_externals_C8 :
    load_externals none = ∅ ∧
    (∀ (content x : String),
      x ∈ load_externals (some content) ↔
        ∃ line ∈ content.split (fun c => c = '\n'),
          pyStrip line ≠ "" ∧ x = pyLower (pyStrip line)) := by
  refine ⟨rfl, ?_⟩
  intro content x
  simp only [load_externals, List.mem_toFinset, List.mem_map, List.mem_filter,
    decide_eq_true_eq]
  aesop

/-- C9: a repository whose commit scan raises (modelled by `scan =
none`) contributes no entry to the report mapping, and the run
continues: the run over any repository list containing it equals the run
with that repository removed. -/
theorem failed_scan_skip_C9 : ∀ (rt : ReportType) (ex : Finset String)
    (f : String → Finset String) (pre post : List RepoInput) (r : RepoInput),
    r.scan = none →
    run_process rt ex f (pre ++ r :: post) = run_process rt ex f (pre ++ post) := by
  intro rt ex f pre post r hr
  have hstep : ∀ acc, runRepo rt ex f acc r = acc := by
    intro acc
    simp [runRepo, hr]
  simp only [run_process, List.foldl_append, List.foldl_cons, hstep]

/-- C9 witness: a failing repository between no predecessor and one
healthy repository is skipped and the healthy one is still processed. -/
theorem failed_scan_skip_C9_witness :
    run_process ReportType.summary ∅ (fun _ => ∅)
      ([] ++ RepoInput.mk "bad" true none ::
        [RepoInput.mk "good" true (some [⟨"alice", "m", 0⟩])]) =
    run_process ReportType.summary ∅ (fun _ => ∅)
      ([] ++ [RepoInput.mk "good" true (some [⟨"alice", "m", 0⟩])]) :=
  failed_scan_skip_C9 ReportType.summary ∅ (fun _ => ∅) []
    [RepoInput.mk "good" true (some [⟨"alice", "m", 0⟩])]
    (RepoInput.mk "bad" true none) rfl

end GitReporter
